import Mathlib

/-
Verification of the binary catalog parsers of node-blizzard-casc
(src/blizzard-casc.js): the archive-index parser (parseIndexFile), the
encoding-table parser (parseEncodingFile) and the root-table parser
(parseRootFile).

A buffer is a list of bytes (`List Nat`, each element a byte value).  The
byte-cursor library used by the source (Bufo) is modelled by bounds-checked
reads returning `Option`: `readInt32`/`readUInt32`/`readUInt16` default to
little-endian and take an explicit big-endian variant where the source passes
ENDIAN_BIG; `readInt32` is a signed 32-bit read.  Failures are surfaced as
`Except ParseError` following the error taxonomy of the parsers.
-/

namespace CASC

/-- Error taxonomy of the three parsers. -/
inductive ParseError where
  | BufferUnderrun
  | CorruptArchiveIndex
  | InvalidRootBlock
deriving Repr, DecidableEq

/-- Bounds-checked raw byte-span read (Bufo readUInt8(n)): the `n` bytes
starting at `off`, or `none` when the span exceeds the buffer. -/
def readBytes (buf : List Nat) (off n : Nat) : Option (List Nat) :=
  if off + n ≤ buf.length then some ((buf.drop off).take n) else none

/-- Big-endian value of a byte list. -/
def beVal (bs : List Nat) : Nat :=
  bs.foldl (fun a b => a * 256 + b) 0

/-- Little-endian value of a byte list. -/
def leVal (bs : List Nat) : Nat :=
  beVal bs.reverse

/-- Signed reinterpretation of an unsigned 32-bit value (two's complement). -/
def toSigned32 (v : Nat) : Int :=
  if v < 2 ^ 31 then (v : Int) else (v : Int) - 2 ^ 32

/-- Bufo readUInt16() with its default little-endian byte order. -/
def readUInt16LE (buf : List Nat) (off : Nat) : Option Nat :=
  (readBytes buf off 2).map leVal

/-- Bufo readUInt32() with its default little-endian byte order. -/
def readUInt32LE (buf : List Nat) (off : Nat) : Option Nat :=
  (readBytes buf off 4).map leVal

/-- Bufo readUInt32(1, ENDIAN_BIG). -/
def readUInt32BE (buf : List Nat) (off : Nat) : Option Nat :=
  (readBytes buf off 4).map beVal

/-- Bufo readInt32() with its default little-endian byte order: signed. -/
def readInt32LE (buf : List Nat) (off : Nat) : Option Int :=
  (readBytes buf off 4).map (fun bs => toSigned32 (leVal bs))

/-- Bufo readInt32(1, ENDIAN_BIG): signed big-endian. -/
def readInt32BE (buf : List Nat) (off : Nat) : Option Int :=
  (readBytes buf off 4).map (fun bs => toSigned32 (beVal bs))

/-- Lowercase hex digit for a value below 16 (bytey helper). -/
def hexDigit (n : Nat) : Char :=
  if n < 10 then Char.ofNat (48 + n) else Char.ofNat (87 + n)

/-- Two lowercase hex characters of one byte. -/
def byteToHex (b : Nat) : List Char :=
  [hexDigit (b / 16), hexDigit (b % 16)]

/-- bytey.byteArrayToHexString: canonical lowercase hex string of a byte list. -/
def byteArrayToHexString (bs : List Nat) : String :=
  String.mk (bs.foldr (fun b acc => byteToHex b ++ acc) [])

/-!
## Archive-index parser (parseIndexFile)

The source pushes objects `{Hash, Size, Offset}` where `Hash` is the hex of
the 16 key bytes (the spec's data model calls this field the entry's `Key`)
and `Size`/`Offset` come from `readInt32(1, ENDIAN_BIG)` — signed reads.
-/

structure ArchiveIndexEntry where
  Hash : String
  Size : Int
  Offset : Int
deriving Repr, DecidableEq

/-- One 24-byte catalog record decoded exactly as the entry loop does:
hex of bytes 0-15, signed big-endian value of bytes 16-19 and of 20-23. -/
def indexEntryOfBytes (b : List Nat) : ArchiveIndexEntry :=
  { Hash := byteArrayToHexString (b.take 16)
    Size := toSigned32 (beVal ((b.drop 16).take 4))
    Offset := toSigned32 (beVal ((b.drop 20).take 4)) }

/-- The entry loop of parseIndexFile: `n` sequential 24-byte records starting
at `off`, each read as 16 raw bytes then two big-endian int32 fields. -/
def readIndexEntries (buf : List Nat) (off : Nat) :
    Nat → Except ParseError (List ArchiveIndexEntry)
  | 0 => .ok []
  | n + 1 =>
    match readBytes buf off 16, readInt32BE buf (off + 16),
        readInt32BE buf (off + 20) with
    | some key, some size, some offv =>
      match readIndexEntries buf (off + 24) n with
      | .ok rest =>
        .ok ({ Hash := byteArrayToHexString key, Size := size,
               Offset := offv } :: rest)
      | .error e => .error e
    | _, _, _ => .error .BufferUnderrun

/-- parseIndexFile: seek 12 bytes before the end, read a signed 32-bit entry
count, seek back to the start, reject when `count * 24` exceeds the buffer
length, then read `count` sequential 24-byte entries. -/
def parseIndexFile (buf : List Nat) :
    Except ParseError (List ArchiveIndexEntry) :=
  if buf.length < 12 then .error .BufferUnderrun
  else
    match readInt32LE buf (buf.length - 12) with
    | none => .error .BufferUnderrun
    | some count =>
      if count * 24 > (buf.length : Int) then .error .CorruptArchiveIndex
      else readIndexEntries buf 0 count.toNat

/-!
## Encoding-table parser (parseEncodingFile)
-/

structure EncodingEntry where
  Hash : String
  Key : String
  Size : Nat
deriving Repr, DecidableEq

/-- The key loop of a group: reads `n` sequential 16-byte encoding keys.
The source iterates over all of them, keeping only the one at j = 0. -/
def readKeys (buf : List Nat) (off : Nat) : Nat → Option (List (List Nat))
  | 0 => some []
  | n + 1 =>
    match readBytes buf off 16 with
    | some k => (readKeys buf (off + 16) n).map (fun ks => k :: ks)
    | none => none

/-- One non-terminator group of a chunk: a 4-byte big-endian file size, a
16-byte content hash, then `k` 16-byte encoding keys of which only the first
becomes the entry's Key; the returned cursor has advanced past all `k` keys. -/
def readEncGroup (buf : List Nat) (off k : Nat) :
    Option (EncodingEntry × Nat) :=
  match readUInt32BE buf off, readBytes buf (off + 4) 16,
      readKeys buf (off + 20) k with
  | some size, some hash, some keys =>
    some ({ Hash := byteArrayToHexString hash,
            Key := byteArrayToHexString (keys.headD []),
            Size := size }, off + 20 + 16 * k)
  | _, _, _ => none

/-- The inner `while (keysCount !== 0)` loop of a chunk: read a 2-byte
key count; zero terminates the chunk (cursor just past the terminator),
otherwise read one group and continue.  Fuel bounds the iteration count;
each group consumes at least two bytes so `buf.length + 1` fuel suffices. -/
def readChunkGroups (buf : List Nat) :
    Nat → Nat → Option (List EncodingEntry × Nat)
  | _, 0 => none
  | off, fuel + 1 =>
    match readUInt16LE buf off with
    | none => none
    | some 0 => some ([], off + 2)
    | some k =>
      match readEncGroup buf (off + 2) k with
      | none => none
      | some (e, off2) =>
        (readChunkGroups buf off2 fuel).map
          (fun r => (e :: r.1, r.2))

/-- Post-terminator alignment step of parseEncodingFile: the source computes
`remainingBytes = 4096 - ((offset - chunkStart) % 4096)` and moves by it when
positive (it always is, so a cursor already on a boundary skips a full
4096-byte page). -/
def encAlign (chunkStart off : Nat) : Nat :=
  let remainingBytes := 4096 - ((off - chunkStart) % 4096)
  if remainingBytes > 0 then off + remainingBytes else off

/-- The outer chunk loop of parseEncodingFile: `n` chunks, each a run of
groups ended by a zero key count, then alignment to the next 4096-byte
boundary measured from `chunkStart`. -/
def readChunks (buf : List Nat) (chunkStart : Nat) :
    Nat → Nat → Except ParseError (List EncodingEntry)
  | _, 0 => .ok []
  | off, n + 1 =>
    match readChunkGroups buf off (buf.length + 1) with
    | none => .error .BufferUnderrun
    | some (es, endOff) =>
      match readChunks buf chunkStart (encAlign chunkStart endOff) n with
      | .ok rest => .ok (es ++ rest)
      | .error e => .error e

/-- parseEncodingFile: skip 9 bytes, read `numEntriesA` (big-endian int32),
skip 5 bytes, read `stringBlockSize` (big-endian int32), skip the string
block and the `numEntriesA * 32`-byte secondary table, then read
`numEntriesA` chunks from the recorded `chunkStart`.  A negative declared
size is treated as an underrun; a negative `numEntriesA` runs the chunk
loop zero times as in the source. -/
def parseEncodingFile (buf : List Nat) :
    Except ParseError (List EncodingEntry) :=
  match readInt32BE buf 9 with
  | none => .error .BufferUnderrun
  | some numEntriesA =>
    match readInt32BE buf 18 with
    | none => .error .BufferUnderrun
    | some stringBlockSize =>
      if stringBlockSize < 0 then .error .BufferUnderrun
      else if numEntriesA < 0 then .ok []
      else
        readChunks buf (22 + stringBlockSize.toNat + 32 * numEntriesA.toNat)
          (22 + stringBlockSize.toNat + 32 * numEntriesA.toNat)
          numEntriesA.toNat

/-!
## Root-table parser (parseRootFile)
-/

/-- Locale and content flag pair of one root block. -/
structure RootType where
  LocaleFlag : Nat
  ContentFlag : Nat
deriving Repr, DecidableEq

structure RootEntry where
  Hash : String
  FileDataID : Int
  Key : String
  «Type» : Nat
deriving Repr, DecidableEq

def ContentFlagNone : Nat := 0
def F00000008 : Nat := 0x8
def F00000010 : Nat := 0x10
def F20000000 : Nat := 0x20000000
def NoCompression : Nat := 0x80000000

/-- The union of the four accepted content-flag bits named by the spec. -/
def rootAcceptedContentMask : Nat :=
  F00000008 ||| F00000010 ||| F20000000 ||| NoCompression

/-- The content-flag rejection test with the literal semantics of the source
expression `contentFlag !== None && (contentFlag & (F00000008 | F00000010 |
NoCompression | F20000000) === 0)`: equality binds tighter than the bitwise
AND, so the right operand of the AND is the boolean `mask === 0` coerced to
an integer. -/
def contentFlagCheckLiteral (c : Nat) : Bool :=
  (c != ContentFlagNone) &&
    ((c &&&
      (if (F00000008 ||| F00000010 ||| NoCompression ||| F20000000) = 0
        then 1 else 0)) != 0)

/-- JS array index assignment `l[k] = v`: pads with holes when `k` is past
the end of the array. -/
def jsArraySet {α : Type} (l : List (Option α)) (k : Nat) (v : α) :
    List (Option α) :=
  if k < l.length then l.set k (some v)
  else l ++ List.replicate (k - l.length) none ++ [some v]

/-- The FileDataID delta loop of a block: each of the `n` positions reads a
signed 32-bit delta, yields `fileDataIndex + delta` and continues with the
running index set past the id just produced. -/
def readRootDeltas (buf : List Nat) (off : Nat) (fdi : Int) :
    Nat → Option (List Int × Nat)
  | 0 => some ([], off)
  | n + 1 =>
    match readInt32LE buf off with
    | none => none
    | some d =>
      (readRootDeltas buf (off + 4) (fdi + d + 1) n).map
        (fun r => ((fdi + d) :: r.1, r.2))

/-- Lookup in the parse-scoped dedup map from FileDataID to the last
accepted content hash (the source's `rootIndex` object). -/
def rootLookup (m : List (Int × String)) (k : Int) : Option String :=
  (m.find? (fun p => p.1 == k)).map (fun p => p.2)

/-- The key/hash loop of a block: for each decoded id read a 16-byte
encoding key and an 8-byte content hash; the source's guard
`hashCheck !== undefined && hashCheck !== hash` skips an id already seen
with a different hash, otherwise the entry is accepted and the dedup map
updated. -/
def readRootPairs (buf : List Nat) (off : Nat) (typeIdx : Nat) :
    List Int → List (Int × String) →
    Option (List RootEntry × List (Int × String) × Nat)
  | [], ridx => some ([], ridx, off)
  | id :: rest, ridx =>
    match readBytes buf off 16, readBytes buf (off + 16) 8 with
    | some key, some hash =>
      if rootLookup ridx id ≠ none ∧
          rootLookup ridx id ≠ some (byteArrayToHexString hash) then
        readRootPairs buf (off + 24) typeIdx rest ridx
      else
        (readRootPairs buf (off + 24) typeIdx rest
            ((id, byteArrayToHexString hash) :: ridx)).map
          (fun r =>
            ({ Hash := byteArrayToHexString hash, FileDataID := id,
               Key := byteArrayToHexString key, «Type» := typeIdx } :: r.1,
              r.2))
    | _, _ => none

/-- One root block: header (signed entry count, content flag, locale flag),
locale and content-flag validation, type registration at the incremented
1-based index, delta loop, then key/hash loop.  Returns the entries the
block accepted, the updated types array, the new cursor, the updated dedup
map and the registered block flags. -/
def parseRootBlock (buf : List Nat) (off : Nat)
    (types : List (Option RootType)) (tIdx : Nat)
    (ridx : List (Int × String)) :
    Except ParseError
      (List RootEntry × List (Option RootType) × Nat ×
        List (Int × String) × RootType) :=
  match readInt32LE buf off, readUInt32LE buf (off + 4),
      readUInt32LE buf (off + 8) with
  | some count, some contentFlag, some localeFlag =>
    if localeFlag = 0 then .error .InvalidRootBlock
    else if contentFlagCheckLiteral contentFlag then .error .InvalidRootBlock
    else
      match readRootDeltas buf (off + 12) 0 count.toNat with
      | none => .error .BufferUnderrun
      | some (ids, off2) =>
        match readRootPairs buf off2 (tIdx + 1) ids ridx with
        | none => .error .BufferUnderrun
        | some (es, ridx2, off3) =>
          .ok (es,
            jsArraySet types (tIdx + 1)
              { LocaleFlag := localeFlag, ContentFlag := contentFlag },
            off3, ridx2,
            { LocaleFlag := localeFlag, ContentFlag := contentFlag })
  | _, _, _ => .error .BufferUnderrun

/-- The block loop of parseRootFile: blocks are read until the cursor
reaches the end of the buffer.  Returns the accepted entries in parse order,
the final types array and the declared blocks in declaration order.  Each
block consumes at least 12 bytes, so `buf.length + 1` fuel suffices. -/
def parseRootBlocks (buf : List Nat) :
    Nat → Nat → List (Option RootType) → Nat → List (Int × String) →
    Except ParseError
      (List RootEntry × List (Option RootType) × List RootType)
  | 0, _, _, _, _ => .error .BufferUnderrun
  | fuel + 1, off, types, tIdx, ridx =>
    if off < buf.length then
      match parseRootBlock buf off types tIdx ridx with
      | .error e => .error e
      | .ok (es, types2, off2, ridx2, blk) =>
        match parseRootBlocks buf fuel off2 types2 (tIdx + 1) ridx2 with
        | .error e => .error e
        | .ok (es2, tys, blks) => .ok (es ++ es2, tys, blk :: blks)
    else .ok ([], types, [])

/-- parseRootFile as written: the returned Entries list is always empty
because the source re-declares `entries` inside the block loop (a
block-scoped array shadowing the result array declared at the top of the
function), so every accepted entry is pushed onto a discarded array. -/
def parseRootFile (buf : List Nat) :
    Except ParseError (List RootEntry × List (Option RootType)) :=
  (parseRootBlocks buf (buf.length + 1) 0 [] 0 []).map
    (fun r => (([] : List RootEntry), r.2.1))

/-- The entries the block loop accepts under the global dedup rule — the
records pushed at the accept site, in parse order (the list the shadowed
inner array receives and the function then drops). -/
def rootAcceptedEntries (buf : List Nat) :
    Except ParseError (List RootEntry) :=
  (parseRootBlocks buf (buf.length + 1) 0 [] 0 []).map (fun r => r.1)

/-- The blocks of the root file in declaration order. -/
def rootDeclaredBlocks (buf : List Nat) :
    Except ParseError (List RootType) :=
  (parseRootBlocks buf (buf.length + 1) 0 [] 0 []).map (fun r => r.2.2)

/-- The delta-decoding recurrence as the spec words it: with running index
`r`, each delta `d` yields the absolute id `r + d` and the next position
continues from `r + d + 1`. -/
def rootDeltaIDs (r : Int) : List Int → List Int
  | [] => []
  | d :: ds => (r + d) :: rootDeltaIDs (r + d + 1) ds

/-!
## Concrete buffers used by counterexamples and witnesses
-/

/-- A 24-byte archive-index record: key 16 x AA, size 0x100 BE, offset
0x200 BE. -/
def aaIndexRecord : List Nat :=
  List.replicate 16 0xAA ++ [0, 0, 1, 0] ++ [0, 0, 2, 0]

/-- A 12-byte archive-index trailer whose 32-bit value 12 bytes before the
end encodes 1. -/
def oneTrailer : List Nat := [1, 0, 0, 0] ++ List.replicate 8 0

/-- A 24-byte archive-index record whose size field has the high bit set:
key 16 x AB, size bytes 80 00 00 00 BE, offset 0x200 BE. -/
def highBitIndexRecord : List Nat :=
  List.replicate 16 0xAB ++ [0x80, 0, 0, 0] ++ [0, 0, 2, 0]

/-- Root buffer with two blocks, each declaring FileDataID 100 with the same
content hash (22 x 8) and distinct keys (11 x 16 and 33 x 16). -/
def rootBufSameHash : List Nat :=
  [1,0,0,0, 0,0,0,0, 2,0,0,0, 100,0,0,0] ++ List.replicate 16 0x11 ++
    List.replicate 8 0x22 ++
  [1,0,0,0, 0,0,0,0, 2,0,0,0, 100,0,0,0] ++ List.replicate 16 0x33 ++
    List.replicate 8 0x22

/-- Root buffer with two blocks, each declaring FileDataID 100 but with
differing content hashes (22 x 8 then 44 x 8). -/
def rootBufDiffHash : List Nat :=
  [1,0,0,0, 0,0,0,0, 2,0,0,0, 100,0,0,0] ++ List.replicate 16 0x11 ++
    List.replicate 8 0x22 ++
  [1,0,0,0, 0,0,0,0, 2,0,0,0, 100,0,0,0] ++ List.replicate 16 0x33 ++
    List.replicate 8 0x44

/-- Root buffer with a single empty block whose contentFlag is 1: non-zero
and sharing no bit with the accepted mask. -/
def rootBufFlagOne : List Nat := [0,0,0,0, 1,0,0,0, 2,0,0,0]

/-- Root buffer with one block declaring one entry, FileDataID 7, key
55 x 16, hash 66 x 8. -/
def rootBufOneEntry : List Nat :=
  [1,0,0,0, 0,0,0,0, 2,0,0,0, 7,0,0,0] ++ List.replicate 16 0x55 ++
    List.replicate 8 0x66

/-- Root buffer fragment holding the three little-endian deltas 5, 0, 2. -/
def rootDeltaBuf : List Nat := [5,0,0,0, 0,0,0,0, 2,0,0,0]

/-- Encoding-chunk fragment: key count 2, size 5 BE, hash 0a x 16, keys
0b x 16 and 0c x 16, then a zero terminator. -/
def encChunkBuf : List Nat :=
  [2, 0] ++ [0, 0, 0, 5] ++ List.replicate 16 0x0a ++
    List.replicate 16 0x0b ++ List.replicate 16 0x0c ++ [0, 0]

/-- The single entry the encChunkBuf group yields: hash 0a x 16, first key
0b x 16, size 5; the second key 0c x 16 is discarded. -/
def encSampleEntry : EncodingEntry :=
  { Hash := "0a0a0a0a0a0a0a0a0a0a0a0a0a0a0a0a",
    Key := "0b0b0b0b0b0b0b0b0b0b0b0b0b0b0b0b",
    Size := 5 }

/-!
## Theorems
-/

/-- C1: the source contradicts its own contract here.  The block loop
accepts entries under the global dedup rule (both FileDataID-100 entries
when the hashes match, only the first when they differ), but the Entries
list parseRootFile returns is empty: the accept site pushes onto a
block-scoped array that shadows the result array and is discarded. -/
theorem parseRootFile_discards_accepted_entries :
    parseRootFile rootBufSameHash =
      .ok ([], [none, some { LocaleFlag := 2, ContentFlag := 0 },
                some { LocaleFlag := 2, ContentFlag := 0 }]) ∧
    rootAcceptedEntries rootBufSameHash =
      .ok [{ Hash := "2222222222222222", FileDataID := 100,
             Key := "11111111111111111111111111111111", «Type» := 1 },
           { Hash := "2222222222222222", FileDataID := 100,
             Key := "33333333333333333333333333333333", «Type» := 2 }] ∧
    rootAcceptedEntries rootBufDiffHash =
      .ok [{ Hash := "2222222222222222", FileDataID := 100,
             Key := "11111111111111111111111111111111", «Type» := 1 }] :=
  ⟨rfl, rfl, rfl⟩

/-- C2 (counterexample): contentFlag 1 is non-zero and shares no bit with
the accepted mask, so the claim predicts an InvalidRootBlock failure, yet
the parse succeeds. -/
theorem contentFlag_literal_accepts_flag_one :
    (1 : Nat) ≠ ContentFlagNone ∧
    (1 : Nat) &&& rootAcceptedContentMask = 0 ∧
    parseRootFile rootBufFlagOne =
      .ok ([], [none, some { LocaleFlag := 2, ContentFlag := 1 }]) :=
  ⟨by decide, by decide, rfl⟩

/-- C2 (amended): the literal content-flag check of the source never
rejects: the equality comparison binds tighter than the bitwise AND, so the
test masks contentFlag with 0 and is false for every contentFlag value. -/
theorem contentFlagCheckLiteral_never_rejects (c : Nat) :
    contentFlagCheckLiteral c = false := by
  unfold contentFlagCheckLiteral
  rw [if_neg (by decide)]
  simp

/-- C2 witness: the never-rejects theorem evaluated at contentFlag 1. -/
theorem contentFlagCheckLiteral_never_rejects_witness :
    contentFlagCheckLiteral 1 = false :=
  contentFlagCheckLiteral_never_rejects 1

/-- C4: the post-terminator alignment step of parseEncodingFile moves the
cursor to the least strictly-larger offset that is a multiple of 4096 bytes
from the chunk-table origin, including when the cursor already sits on a
boundary (it then advances a whole 4096-byte page). -/
theorem encAlign_next_boundary (cs off : Nat) (h : cs ≤ off) :
    (encAlign cs off - cs) % 4096 = 0 ∧ off < encAlign cs off ∧
    ∀ m, off < m → (m - cs) % 4096 = 0 → encAlign cs off ≤ m := by
  have h1 : (off - cs) % 4096 < 4096 := Nat.mod_lt _ (by norm_num)
  simp only [encAlign]
  rw [if_pos (by omega)]
  refine ⟨by omega, by omega, fun m hm hmod => by omega⟩

/-- C4 witness: a cursor sitting exactly on the boundary at offset 4096
from origin 0 is advanced to a strictly larger multiple of 4096. -/
theorem encAlign_next_boundary_witness :
    (encAlign 0 4096 - 0) % 4096 = 0 ∧ 4096 < encAlign 0 4096 :=
  ⟨(encAlign_next_boundary 0 4096 (by decide)).1,
    (encAlign_next_boundary 0 4096 (by decide)).2.1⟩

/-- C5: whenever the signed trailer count times 24 exceeds the buffer
length, parseIndexFile fails with CorruptArchiveIndex and produces no
partial result. -/
theorem parseIndexFile_corrupt_count (buf : List Nat) (count : Int)
    (h12 : 12 ≤ buf.length)
    (hc : readInt32LE buf (buf.length - 12) = some count)
    (hgt : count * 24 > (buf.length : Int)) :
    parseIndexFile buf = .error ParseError.CorruptArchiveIndex := by
  unfold parseIndexFile
  rw [if_neg (by omega), hc]
  exact if_pos hgt

/-- C5 witness: a 12-byte buffer declaring 2 entries fails. -/
theorem parseIndexFile_corrupt_count_witness :
    parseIndexFile [2, 0, 0, 0, 0, 0, 0, 0, 0, 0, 0, 0] =
      .error ParseError.CorruptArchiveIndex :=
  parseIndexFile_corrupt_count _ 2 (by decide) (by decide) (by decide)

/-- C9: a negative signed trailer count passes the size guard, runs the
entry loop zero times and yields a successful empty parse. -/
theorem parseIndexFile_negative_count (buf : List Nat) (count : Int)
    (h12 : 12 ≤ buf.length)
    (hc : readInt32LE buf (buf.length - 12) = some count)
    (hneg : count < 0) :
    parseIndexFile buf = .ok [] := by
  unfold parseIndexFile
  rw [if_neg (by omega), hc]
  have hng : ¬count * 24 > (buf.length : Int) := by
    have : (0 : Int) ≤ (buf.length : Int) := Int.natCast_nonneg _
    omega
  have h0 : count.toNat = 0 := Int.toNat_of_nonpos hneg.le
  exact (if_neg hng).trans (by rw [h0]; rfl)

/-- C9 witness: a 12-byte buffer whose trailer count bytes decode to the
signed value -1 parses to the empty entry list. -/
theorem parseIndexFile_negative_count_witness :
    parseIndexFile [255, 255, 255, 255, 0, 0, 0, 0, 0, 0, 0, 0] = .ok [] :=
  parseIndexFile_negative_count _ (-1) (by decide) (by decide) (by decide)

/-- C6: the FileDataID loop of a root block delta-decodes with a running
index: each position yields runningIndex + delta and continues from the id
plus one, which is the rootDeltaIDs recurrence. -/
theorem readRootDeltas_delta_decoding (ds : List Int) :
    ∀ (buf : List Nat) (off : Nat) (r : Int),
    (∀ i, i < ds.length → readInt32LE buf (off + 4 * i) = ds[i]?) →
    readRootDeltas buf off r ds.length =
      some (rootDeltaIDs r ds, off + 4 * ds.length) := by
  induction ds with
  | nil => intro buf off r _; rfl
  | cons d t ih =>
    intro buf off r h
    have h0 : readInt32LE buf off = some d := by
      have := h 0 (by simp)
      simpa using this
    have ht : ∀ i, i < t.length →
        readInt32LE buf ((off + 4) + 4 * i) = t[i]? := by
      intro i hi
      have := h (i + 1) (by simpa using Nat.succ_lt_succ hi)
      rw [show off + 4 * (i + 1) = off + 4 + 4 * i by ring] at this
      simpa using this
    simp only [List.length_cons, readRootDeltas, h0]
    rw [ih buf (off + 4) (r + d + 1) ht]
    simp only [Option.map_some', rootDeltaIDs, Option.some.injEq,
      Prod.mk.injEq, true_and, List.cons.injEq]
    omega

/-- C6 witness: deltas 5, 0, 2 decode to FileDataIDs 5, 6, 9. -/
theorem readRootDeltas_delta_decoding_witness :
    readRootDeltas rootDeltaBuf 0 0 3 = some ([5, 6, 9], 12) := by
  have h := readRootDeltas_delta_decoding [5, 0, 2] rootDeltaBuf 0 0
    (by decide)
  exact h

/-- C7: a non-terminator group of an encoding chunk reads a 4-byte
big-endian size, a 16-byte hash and k 16-byte keys; exactly one entry is
appended, whose Key is the first of the k keys, and the cursor advances
past all k keys (to off + 20 + 16 * k within the group, then the chunk loop
continues from there). -/
theorem encGroup_first_key :
    (∀ (buf : List Nat) (off k : Nat) (sb hb k0 : List Nat)
        (ks : List (List Nat)),
      readBytes buf off 4 = some sb →
      readBytes buf (off + 4) 16 = some hb →
      readKeys buf (off + 20) k = some (k0 :: ks) →
      readEncGroup buf off k =
        some ({ Hash := byteArrayToHexString hb,
                Key := byteArrayToHexString k0,
                Size := beVal sb }, off + 20 + 16 * k)) ∧
    (∀ (buf : List Nat) (off k : Nat) (e : EncodingEntry)
        (off2 fuel : Nat) (es : List EncodingEntry) (off3 : Nat),
      readUInt16LE buf off = some k → k ≠ 0 →
      readEncGroup buf (off + 2) k = some (e, off2) →
      readChunkGroups buf off2 fuel = some (es, off3) →
      readChunkGroups buf off (fuel + 1) = some (e :: es, off3)) := by
  constructor
  · intro buf off k sb hb k0 ks h1 h2 h3
    unfold readEncGroup
    rw [show readUInt32BE buf off = some (beVal sb) by
      unfold readUInt32BE; rw [h1]; rfl]
    rw [h2, h3]
    rfl
  · intro buf off k e off2 fuel es off3 h1 hk h2 h3
    obtain ⟨n, rfl⟩ : ∃ n, k = n + 1 := ⟨k - 1, by omega⟩
    simp only [readChunkGroups, h1, h2, h3]
    rfl

/-- C7 witness: the two-key group of encChunkBuf emits one entry carrying
the first key, and the chunk loop appends exactly that entry with the
cursor moved past both keys and the terminator. -/
theorem encGroup_first_key_witness :
    readEncGroup encChunkBuf 2 2 = some (encSampleEntry, 54) ∧
    readChunkGroups encChunkBuf 0 2 = some ([encSampleEntry], 56) := by
  have h1 := encGroup_first_key.1 encChunkBuf 2 2 [0, 0, 0, 5]
    (List.replicate 16 0x0a) (List.replicate 16 0x0b)
    [List.replicate 16 0x0c] (by decide) (by decide) (by decide)
  have h2 := encGroup_first_key.2 encChunkBuf 0 2 encSampleEntry 54 1 []
    56 (by decide) (by decide) (by exact h1) (by rfl)
  exact ⟨by exact h1, h2⟩

/-- Length of a catalog of 24-byte records. -/
theorem flatten_length_of_forall_24 (blocks : List (List Nat))
    (h : ∀ b ∈ blocks, b.length = 24) :
    blocks.flatten.length = 24 * blocks.length := by
  induction blocks with
  | nil => simp
  | cons b bs ih =>
    simp only [List.flatten_cons, List.length_append, List.length_cons]
    rw [h b (List.mem_cons_self b bs),
      ih (fun x hx => h x (List.mem_cons_of_mem _ hx))]
    ring

/-- The entry loop decodes a catalog of 24-byte records placed at `off`
byte-exactly, in catalog order. -/
theorem readIndexEntries_blocks (blocks : List (List Nat)) :
    ∀ (buf rest : List Nat) (off : Nat),
    (∀ b ∈ blocks, b.length = 24) → off ≤ buf.length →
    buf.drop off = blocks.flatten ++ rest →
    readIndexEntries buf off blocks.length =
      .ok (blocks.map indexEntryOfBytes) := by
  induction blocks with
  | nil => intro buf rest off _ _ _; rfl
  | cons b bs ih =>
    intro buf rest off hlen hoff hdrop
    have hb : b.length = 24 := hlen b (List.mem_cons_self _ _)
    have hdrop' : buf.drop off = b ++ (bs.flatten ++ rest) := by
      simpa [List.append_assoc] using hdrop
    have hge : 24 ≤ buf.length - off := by
      have h1 : (buf.drop off).length = buf.length - off :=
        List.length_drop _ _
      rw [← h1, hdrop']
      simp [hb]
    have hd16 : buf.drop (off + 16) = b.drop 16 ++ (bs.flatten ++ rest) := by
      rw [← List.drop_drop, hdrop', List.drop_append_of_le_length (by omega)]
    have hd20 : buf.drop (off + 20) = b.drop 20 ++ (bs.flatten ++ rest) := by
      rw [← List.drop_drop, hdrop', List.drop_append_of_le_length (by omega)]
    have hr16 : readBytes buf off 16 = some (b.take 16) := by
      unfold readBytes
      rw [if_pos (by omega), hdrop',
        List.take_append_of_le_length (by omega)]
    have hsz : readInt32BE buf (off + 16) =
        some (toSigned32 (beVal ((b.drop 16).take 4))) := by
      unfold readInt32BE readBytes
      rw [if_pos (by omega), hd16,
        List.take_append_of_le_length (by simp [hb])]
      rfl
    have hof : readInt32BE buf (off + 20) =
        some (toSigned32 (beVal ((b.drop 20).take 4))) := by
      unfold readInt32BE readBytes
      rw [if_pos (by omega), hd20,
        List.take_append_of_le_length (by simp [hb])]
      rfl
    have hrec : readIndexEntries buf (off + 24) bs.length =
        .ok (bs.map indexEntryOfBytes) := by
      refine ih buf rest (off + 24)
        (fun x hx => hlen x (List.mem_cons_of_mem _ hx)) (by omega) ?_
      rw [← List.drop_drop, hdrop', List.drop_left' hb]
    simp only [List.length_cons, readIndexEntries, hr16, hsz, hof, hrec]
    rfl

/-- A well-formed archive-index buffer — a flat catalog of 24-byte records
followed by a 12-byte trailer whose value 12 bytes before the end encodes
the record count — parses to exactly the catalog, in order, byte-exactly. -/
theorem parseIndexFile_wf (blocks : List (List Nat)) (trailer : List Nat)
    (hb : ∀ b ∈ blocks, b.length = 24) (htr : trailer.length = 12)
    (hcount : leVal (trailer.take 4) = blocks.length)
    (hsmall : blocks.length < 2 ^ 31) :
    parseIndexFile (blocks.flatten ++ trailer) =
      .ok (blocks.map indexEntryOfBytes) := by
  have hfl : blocks.flatten.length = 24 * blocks.length :=
    flatten_length_of_forall_24 blocks hb
  have hlen : (blocks.flatten ++ trailer).length = 24 * blocks.length + 12 := by
    simp [hfl, htr]
  have hrb : readBytes (blocks.flatten ++ trailer) blocks.flatten.length 4 =
      some (trailer.take 4) := by
    unfold readBytes
    rw [if_pos (by simp [htr]), List.drop_left]
  have hread : readInt32LE (blocks.flatten ++ trailer)
      ((blocks.flatten ++ trailer).length - 12) =
        some (blocks.length : Int) := by
    unfold readInt32LE
    rw [show (blocks.flatten ++ trailer).length - 12 = blocks.flatten.length
      by omega]
    rw [hrb]
    simp only [Option.map_some', hcount, toSigned32]
    rw [if_pos (by exact_mod_cast hsmall)]
  unfold parseIndexFile
  rw [if_neg (by omega), hread]
  have hng : ¬(blocks.length : Int) * 24 >
      ((blocks.flatten ++ trailer).length : Int) := by
    rw [hlen]
    push_cast
    omega
  refine (if_neg hng).trans ?_
  rw [Int.toNat_ofNat]
  exact readIndexEntries_blocks blocks _ trailer 0 hb (by omega)
    (by rw [List.drop_zero])

/-- C3: for every archive-index buffer built from N well-formed 24-byte
records plus a 12-byte trailer whose 32-bit value 12 bytes before the end
encodes N, parseIndexFile returns exactly the N records in encoded order
with byte-exact fields (the key bytes under the source's Hash field name,
then the size and offset words). -/
theorem parseIndexFile_wellformed (blocks : List (List Nat))
    (trailer : List Nat) (hb : ∀ b ∈ blocks, b.length = 24)
    (htr : trailer.length = 12)
    (hcount : leVal (trailer.take 4) = blocks.length)
    (hsmall : blocks.length < 2 ^ 31) :
    parseIndexFile (blocks.flatten ++ trailer) =
      .ok (blocks.map indexEntryOfBytes) :=
  parseIndexFile_wf blocks trailer hb htr hcount hsmall

/-- C3 witness: the single record key 16 x AA, size 0x100 BE, offset 0x200
BE with a trailer encoding 1 parses to the one expected entry. -/
theorem parseIndexFile_wellformed_witness :
    parseIndexFile ([aaIndexRecord].flatten ++ oneTrailer) =
      .ok [{ Hash := "aaaaaaaaaaaaaaaaaaaaaaaaaaaaaaaa", Size := 256,
             Offset := 512 }] := by
  have h := parseIndexFile_wellformed [aaIndexRecord] oneTrailer
    (by decide) (by decide) (by decide) (by decide)
  exact h

/-- C8 (counterexample): an entry whose size bytes are 80 00 00 00 (the
uint32 value 2^31) comes back with Size -2147483648: the source reads the
field with the signed readInt32, so a high-bit value is not returned as the
non-negative value in the range from 2^31 to 2^32. -/
theorem parseIndexFile_size_not_uint32 :
    parseIndexFile (highBitIndexRecord ++ oneTrailer) =
      .ok [{ Hash := "abababababababababababababababab",
             Size := -2147483648, Offset := 512 }] ∧
    (-2147483648 : Int) < 0 ∧ beVal [0x80, 0, 0, 0] = 2 ^ 31 :=
  ⟨rfl, by decide, by decide⟩

/-- C8 (amended): Size and Offset are the signed 32-bit big-endian
interpretations of their 4-byte encodings: when the size word is at least
2^31 the returned field equals that value minus 2^32 and is negative. -/
theorem parseIndexFile_signed_fields (key sb ob trailer : List Nat)
    (hk : key.length = 16) (hs : sb.length = 4) (ho : ob.length = 4)
    (htr : trailer.length = 12) (hcount : leVal (trailer.take 4) = 1) :
    parseIndexFile (key ++ sb ++ ob ++ trailer) =
      .ok [{ Hash := byteArrayToHexString key,
             Size := toSigned32 (beVal sb),
             Offset := toSigned32 (beVal ob) }] ∧
    (2 ^ 31 ≤ beVal sb → beVal sb < 2 ^ 32 →
      toSigned32 (beVal sb) = (beVal sb : Int) - 2 ^ 32 ∧
        toSigned32 (beVal sb) < 0) := by
  constructor
  · have h := parseIndexFile_wf [key ++ sb ++ ob] trailer
      (fun b hbm => by
        rw [List.mem_singleton] at hbm
        rw [hbm]
        simp [hk, hs, ho])
      htr (by simpa using hcount) (by norm_num)
    have hfl : ([key ++ sb ++ ob] : List (List Nat)).flatten ++ trailer =
        key ++ sb ++ ob ++ trailer := by
      simp
    rw [hfl] at h
    rw [h]
    have h16 : (key ++ (sb ++ ob)).take 16 = key := List.take_left' hk
    have hd16 : (key ++ (sb ++ ob)).drop 16 = sb ++ ob := List.drop_left' hk
    have hd20 : (key ++ (sb ++ ob)).drop 20 = ob := by
      have h1 : (key ++ (sb ++ ob)).drop 20 =
          ((key ++ (sb ++ ob)).drop 16).drop 4 := (List.drop_drop 4 16 _).symm
      rw [h1, hd16, List.drop_left' hs]
    simp only [List.map_cons, List.map_nil, indexEntryOfBytes]
    rw [show key ++ sb ++ ob = key ++ (sb ++ ob) from List.append_assoc _ _ _]
    rw [h16, hd16, hd20, List.take_left' hs,
      show ob.take 4 = ob from by rw [← ho]; exact List.take_length ob]
  · intro hge hlt2
    unfold toSigned32
    rw [if_neg (by omega)]
    refine ⟨rfl, ?_⟩
    have hcast : (beVal sb : Int) < 2 ^ 32 := by exact_mod_cast hlt2
    omega

/-- C8 witness: the concrete record key 16 x AB, size bytes 80 00 00 00,
offset 0x200 parses with Size equal to 2^31 minus 2^32, a negative value. -/
theorem parseIndexFile_signed_fields_witness :
    parseIndexFile (List.replicate 16 0xAB ++ [0x80, 0, 0, 0] ++
        [0, 0, 2, 0] ++ oneTrailer) =
      .ok [{ Hash := "abababababababababababababababab",
             Size := -2147483648, Offset := 512 }] ∧
    toSigned32 (beVal [0x80, 0, 0, 0]) =
      (beVal [0x80, 0, 0, 0] : Int) - 2 ^ 32 ∧
    toSigned32 (beVal [0x80, 0, 0, 0]) < 0 := by
  obtain ⟨h1, h2⟩ := parseIndexFile_signed_fields (List.replicate 16 0xAB)
    [0x80, 0, 0, 0] [0, 0, 2, 0] oneTrailer (by decide) (by decide)
    (by decide) (by decide) (by decide)
  exact ⟨by exact h1, (h2 (by decide) (by decide)).1,
    (h2 (by decide) (by decide)).2⟩

/-- Every entry the key/hash loop of one block accepts carries the type
index the block was registered under. -/
theorem readRootPairs_type_fixed (ids : List Int) :
    ∀ (buf : List Nat) (off typeIdx : Nat) (ridx : List (Int × String))
      (es : List RootEntry) (ridx2 : List (Int × String)) (off2 : Nat),
    readRootPairs buf off typeIdx ids ridx = some (es, ridx2, off2) →
    ∀ e ∈ es, e.«Type» = typeIdx := by
  induction ids with
  | nil =>
    intro buf off typeIdx ridx es ridx2 off2 h e he
    simp only [readRootPairs, Option.some.injEq, Prod.mk.injEq] at h
    obtain ⟨h1, -, -⟩ := h
    rw [← h1] at he
    simp at he
  | cons id rest ih =>
    intro buf off typeIdx ridx es ridx2 off2 h e he
    cases hk : readBytes buf off 16 with
    | none =>
      simp only [readRootPairs, hk] at h
      exact Option.noConfusion h
    | some key =>
      cases hh : readBytes buf (off + 16) 8 with
      | none =>
        simp only [readRootPairs, hk, hh] at h
        exact Option.noConfusion h
      | some hsh =>
        simp only [readRootPairs, hk, hh] at h
        by_cases hc : rootLookup ridx id ≠ none ∧
            rootLookup ridx id ≠ some (byteArrayToHexString hsh)
        · rw [if_pos hc] at h
          exact ih buf (off + 24) typeIdx ridx es ridx2 off2 h e he
        · rw [if_neg hc] at h
          rw [Option.map_eq_some'] at h
          obtain ⟨r, hrec, hr⟩ := h
          obtain ⟨es', ridx', off'⟩ := r
          simp only [Prod.mk.injEq] at hr
          obtain ⟨h1, -, -⟩ := hr
          rw [← h1] at he
          rcases List.mem_cons.mp he with rfl | he'
          · rfl
          · exact ih buf (off + 24) typeIdx
              ((id, byteArrayToHexString hsh) :: ridx) es' ridx' off'
              hrec e he'

/-- One successfully parsed block extends the types array at the next
1-based position (padding position 0 with a hole on the first block) and
stamps every entry it accepts with that position. -/
theorem parseRootBlock_spec {buf : List Nat} {off : Nat}
    {types : List (Option RootType)} {tIdx : Nat}
    {ridx : List (Int × String)} {es : List RootEntry}
    {types2 : List (Option RootType)} {off2 : Nat}
    {ridx2 : List (Int × String)} {blk : RootType}
    (h : parseRootBlock buf off types tIdx ridx =
      .ok (es, types2, off2, ridx2, blk))
    (hlen : types.length ≤ tIdx + 1) :
    types2 = types ++ List.replicate (tIdx + 1 - types.length) none ++
      [some blk] ∧ ∀ e ∈ es, e.«Type» = tIdx + 1 := by
  cases h1 : readInt32LE buf off with
  | none =>
    simp only [parseRootBlock, h1] at h
    exact Except.noConfusion h
  | some count =>
    cases h2 : readUInt32LE buf (off + 4) with
    | none =>
      simp only [parseRootBlock, h1, h2] at h
      exact Except.noConfusion h
    | some contentFlag =>
      cases h3 : readUInt32LE buf (off + 8) with
      | none =>
        simp only [parseRootBlock, h1, h2, h3] at h
        exact Except.noConfusion h
      | some localeFlag =>
        simp only [parseRootBlock, h1, h2, h3] at h
        by_cases hl0 : localeFlag = 0
        · rw [if_pos hl0] at h
          simp at h
        · rw [if_neg hl0] at h
          by_cases hcf : contentFlagCheckLiteral contentFlag = true
          · rw [if_pos hcf] at h
            simp at h
          · rw [if_neg hcf] at h
            cases h4 : readRootDeltas buf (off + 12) 0 count.toNat with
            | none =>
              simp only [h4] at h
              exact Except.noConfusion h
            | some p =>
              obtain ⟨ids, offd⟩ := p
              simp only [h4] at h
              cases h5 : readRootPairs buf offd (tIdx + 1) ids ridx with
              | none =>
                simp only [h5] at h
                exact Except.noConfusion h
              | some r =>
                obtain ⟨esB, ridxB, offB⟩ := r
                simp only [h5] at h
                simp only [Except.ok.injEq, Prod.mk.injEq] at h
                obtain ⟨hes, ht2, -, -, hblk⟩ := h
                constructor
                · rw [← ht2, ← hblk]
                  unfold jsArraySet
                  rw [if_neg (by omega)]
                · intro e he
                  exact readRootPairs_type_fixed ids buf offd (tIdx + 1)
                    ridx esB ridxB offB h5 e (by rw [hes]; exact he)

/-- Invariant of the block loop: starting from a types array that fills
positions up to the current type index, the final types array is the
starting one extended by one hole up to position tIdx + 1 and then the
declared blocks in order, and every accepted entry's Type indexes the types
array at its own block's record. -/
theorem parseRootBlocks_inv (buf : List Nat) :
    ∀ (fuel off : Nat) (types : List (Option RootType)) (tIdx : Nat)
      (ridx : List (Int × String)) (es : List RootEntry)
      (tys : List (Option RootType)) (blks : List RootType),
    parseRootBlocks buf fuel off types tIdx ridx = .ok (es, tys, blks) →
    types.length ≤ tIdx + 1 →
    (blks = [] ∧ es = [] ∧ tys = types) ∨
      (tys = types ++ List.replicate (tIdx + 1 - types.length) none ++
          blks.map some ∧
        ∀ e ∈ es, ∃ j blk, blks[j]? = some blk ∧
          e.«Type» = tIdx + 1 + j ∧ tys[e.«Type»]? = some (some blk)) := by
  intro fuel
  induction fuel with
  | zero =>
    intro off types tIdx ridx es tys blks h _
    simp [parseRootBlocks] at h
  | succ fuel ih =>
    intro off types tIdx ridx es tys blks h hlen
    simp only [parseRootBlocks] at h
    by_cases hoff : off < buf.length
    · rw [if_pos hoff] at h
      cases hb : parseRootBlock buf off types tIdx ridx with
      | error err =>
        simp only [hb] at h
        exact Except.noConfusion h
      | ok r =>
        obtain ⟨esB, types2, off2, ridx2, blk⟩ := r
        simp only [hb] at h
        cases hr : parseRootBlocks buf fuel off2 types2 (tIdx + 1) ridx2 with
        | error err =>
          simp only [hr] at h
          exact Except.noConfusion h
        | ok r2 =>
          obtain ⟨es2, tys2, blks2⟩ := r2
          simp only [hr] at h
          simp only [Except.ok.injEq, Prod.mk.injEq] at h
          obtain ⟨hes, htys, hblks⟩ := h
          obtain ⟨htypes2, hTypeB⟩ := parseRootBlock_spec hb hlen
          have hlenTR : (types ++ List.replicate (tIdx + 1 - types.length)
              (none : Option RootType)).length = tIdx + 1 := by
            simp
            omega
          have hlen2 : types2.length = tIdx + 2 := by
            rw [htypes2]
            simp
            omega
          have hinv := ih off2 types2 (tIdx + 1) ridx2 es2 tys2 blks2 hr
            (by omega)
          right
          rcases hinv with ⟨hb2, he2, ht2⟩ | ⟨ht2, hent⟩
          · constructor
            · rw [← htys, ht2, htypes2, ← hblks, hb2]
              simp
            · intro e he
              rw [← hes, he2, List.append_nil] at he
              have hT := hTypeB e he
              refine ⟨0, blk, by rw [← hblks, hb2]; simp, by omega, ?_⟩
              rw [hT, ← htys, ht2, htypes2]
              rw [List.getElem?_append_right (by rw [hlenTR])]
              rw [hlenTR]
              simp
          · have hz : tIdx + 1 + 1 - (tIdx + 2) = 0 := by omega
            constructor
            · rw [← htys, ht2, hlen2, hz, htypes2, ← hblks]
              simp [List.append_assoc]
            · intro e he
              rw [← hes, List.mem_append] at he
              have htysShape : tys = (types ++
                  List.replicate (tIdx + 1 - types.length) none) ++
                  (some blk :: blks2.map some) := by
                rw [← htys, ht2, hlen2, hz, htypes2]
                simp [List.append_assoc]
              rcases he with heB | he2
              · have hT := hTypeB e heB
                refine ⟨0, blk, by rw [← hblks]; simp, by omega, ?_⟩
                rw [hT, htysShape]
                rw [List.getElem?_append_right (by rw [hlenTR])]
                rw [hlenTR]
                simp
              · obtain ⟨j, blk2, hj, hT, hidx⟩ := hent e he2
                refine ⟨j + 1, blk2, ?_, by omega, ?_⟩
                · rw [← hblks]
                  simpa using hj
                · rw [← htys]
                  exact hidx
    · rw [if_neg hoff] at h
      simp only [Except.ok.injEq, Prod.mk.injEq] at h
      obtain ⟨hes, htys, hblks⟩ := h
      exact .inl ⟨hblks.symm, hes.symm, htys.symm⟩

/-- C10: the Types collection of parseRootFile is 1-based: position 0 is
never assigned (it is a hole unless no block was declared at all), the k-th
declared block's flag record sits at position k, and every emitted entry's
Type field is the 1-based position of its block, so indexing Types by an
entry's Type retrieves its block's flags. -/
theorem parseRootFile_types_one_based (buf : List Nat)
    (es0 : List RootEntry) (tys : List (Option RootType))
    (blks : List RootType) (entries : List RootEntry)
    (h1 : parseRootFile buf = .ok (es0, tys))
    (h2 : rootDeclaredBlocks buf = .ok blks)
    (h3 : rootAcceptedEntries buf = .ok entries) :
    (tys = [] ∧ blks = [] ∧ entries = []) ∨
      (tys = none :: blks.map some ∧
        ∀ e ∈ entries, ∃ j blk, blks[j]? = some blk ∧
          e.«Type» = 1 + j ∧ tys[e.«Type»]? = some (some blk)) := by
  unfold parseRootFile at h1
  unfold rootDeclaredBlocks at h2
  unfold rootAcceptedEntries at h3
  cases hp : parseRootBlocks buf (buf.length + 1) 0 [] 0 [] with
  | error err => rw [hp] at h1; simp [Except.map] at h1
  | ok r =>
    obtain ⟨a, t, b⟩ := r
    rw [hp] at h1 h2 h3
    simp only [Except.map, Except.ok.injEq, Prod.mk.injEq] at h1 h2 h3
    obtain ⟨-, hteq⟩ := h1
    have hinv := parseRootBlocks_inv buf (buf.length + 1) 0 [] 0 [] a t b
      hp (by simp)
    rcases hinv with ⟨hb, ha, ht⟩ | ⟨ht, hent⟩
    · left
      refine ⟨?_, ?_, ?_⟩
      · rw [← hteq, ht]
      · rw [← h2, hb]
      · rw [← h3, ha]
    · right
      constructor
      · rw [← hteq, ht, ← h2]
        simp
      · intro e he
        obtain ⟨j, blk, hj, hT, hidx⟩ := hent e (by rw [h3]; exact he)
        refine ⟨j, blk, by rw [← h2]; exact hj, by omega, ?_⟩
        rw [← hteq]
        exact hidx

/-- C10 witness: for the one-block one-entry buffer the returned Types
array is a hole at position 0 followed by the declared block's record at
position 1. -/
theorem parseRootFile_types_one_based_witness :
    ([none, some { LocaleFlag := 2, ContentFlag := 0 }] :
        List (Option RootType)) =
      none :: ([{ LocaleFlag := 2, ContentFlag := 0 }] :
        List RootType).map some := by
  rcases parseRootFile_types_one_based rootBufOneEntry []
    [none, some { LocaleFlag := 2, ContentFlag := 0 }]
    [{ LocaleFlag := 2, ContentFlag := 0 }]
    [{ Hash := "6666666666666666", FileDataID := 7,
       Key := "55555555555555555555555555555555",
       «Type» := 1 }]
    rfl rfl rfl with ⟨h, -, -⟩ | ⟨h, -⟩
  · exact absurd h (by simp)
  · exact h

end CASC
